import Mathlib

/-!
# Verification of the splitwise-mcp entity-resolution layer

A shallow embedding of `src/splitwise_mcp_server/cache.py` (the TTL cache
`CacheManager`) and `src/splitwise_mcp_server/resolver.py` (the
`EntityResolver` with its fuzzy-matching pipeline), together with proofs of
the behavioural properties stated in the specification.

Python dictionaries are modelled as association lists over an inductive
`PyVal` value type (insertion order preserved, unique keys in practice).
Python's `time.time()` floats and rapidfuzz's float scores are modelled as
rationals.  The rapidfuzz scoring function `fuzz.token_sort_ratio` is an
external library dependency, so theorems about the matching pipeline are
stated for an arbitrary `score` function; concrete instantiations rely only
on the documented fact that identical strings score 100.
-/

namespace SplitwiseMCP

/-- A Python value as it occurs in the JSON-shaped data the resolver
handles: `None`, integers, strings, lists and dictionaries. -/
inductive PyVal where
  | vNone
  | vInt (n : Int)
  | vStr (s : String)
  | vList (xs : List PyVal)
  | vDict (fields : List (String × PyVal))

/-- A Python dictionary with string keys, in insertion order. -/
abbrev Obj := List (String × PyVal)

/-- Association-list lookup, modelling `key in d` / `d[key]` for a Python
dictionary with string keys. -/
def alGet {V : Type} (l : List (String × V)) (k : String) : Option V :=
  match l with
  | [] => none
  | (k', v) :: rest => if k' = k then some v else alGet rest k

/-- Association-list `del d[key]` (removes the binding when present). -/
def alDel {V : Type} (l : List (String × V)) (k : String) : List (String × V) :=
  match l with
  | [] => []
  | (k', v) :: rest => if k' = k then rest else (k', v) :: alDel rest k

/-- Association-list `d[key] = value`: replace in place when the key
exists, append otherwise (Python insertion-order semantics). -/
def alSet {V : Type} (l : List (String × V)) (k : String) (v : V) : List (String × V) :=
  match l with
  | [] => [(k, v)]
  | (k', v') :: rest => if k' = k then (k, v) :: rest else (k', v') :: alSet rest k v

/-- `d[k]` lookup returning `none` when the key is missing
(Python `d.get(k)` / `k in d`). -/
def dictGet (o : Obj) (k : String) : Option PyVal :=
  match o with
  | [] => none
  | (k', v) :: rest => if k' = k then some v else dictGet rest k

/-- Python `d[k] = v`: replace the value in place if the key exists,
otherwise append the new pair (insertion order semantics). -/
def dictSet (o : Obj) (k : String) (v : PyVal) : Obj :=
  match o with
  | [] => [(k, v)]
  | (k', v') :: rest => if k' = k then (k, v) :: rest else (k', v') :: dictSet rest k v

/-- Python `d.get(k, default)` where the call site expects a string:
returns the stored string, or the default when the key is missing or the
stored value is not a string. -/
def getStrD (o : Obj) (k : String) (d : String) : String :=
  match dictGet o k with
  | some (PyVal.vStr s) => s
  | _ => d

/-- Python `d.get(k, [])` where the call site expects a list. -/
def getListD (o : Obj) (k : String) : List PyVal :=
  match dictGet o k with
  | some (PyVal.vList xs) => xs
  | _ => []

/-- ASCII model of Python's `str.lower()`. -/
def pyLower (s : String) : String := ⟨s.data.map Char.toLower⟩

/-- Whitespace recognised by Python's `str.strip()` (the characters that
occur in the data this code handles). -/
def isSpaceChar (c : Char) : Bool := (c == ' ') || (c == '\t') || (c == '\n') || (c == '\r')

/-- Model of Python's `str.strip()`: drop leading and trailing whitespace. -/
def pyStrip (s : String) : String :=
  ⟨((s.data.dropWhile isSpaceChar).reverse.dropWhile isSpaceChar).reverse⟩

/-! ## cache.py — `CacheManager`

`CacheManager.__init__` builds two empty dicts `_cache` and `_timestamps`
plus a TTL in seconds.  Wall-clock instants (`time.time()`) are rationals
passed explicitly to each operation. -/

/-- The state of `CacheManager` (cache.py lines 23-32): configured TTL,
the value map `_cache` and the timestamp map `_timestamps`. -/
structure CacheManager (V : Type) where
  ttl_seconds : ℚ
  cache : List (String × V)
  timestamps : List (String × ℚ)

namespace CacheManager

/-- A fresh cache as built by `CacheManager.__init__` (cache.py 23-32). -/
def init (V : Type) (ttl : ℚ) : CacheManager V := ⟨ttl, [], []⟩

/-- `CacheManager.get` (cache.py 34-60) at wall-clock instant `now`:
miss on an absent key; on a present key compare the entry's age
(`now - timestamp`, timestamp defaulting to 0 via `.get(key, 0)`) against
the TTL, lazily deleting and missing when `age > ttl`, otherwise hit.
Returns the Python return value together with the post-state. -/
def get {V : Type} (st : CacheManager V) (now : ℚ) (key : String) :
    Option V × CacheManager V :=
  match alGet st.cache key with
  | none => (none, st)
  | some v =>
    let timestamp := (alGet st.timestamps key).getD 0
    let age := now - timestamp
    if st.ttl_seconds < age then
      (none, { st with cache := alDel st.cache key, timestamps := alDel st.timestamps key })
    else
      (some v, st)

/-- `CacheManager.set` (cache.py 62-71): store the value and stamp it with
the current instant, overwriting any prior entry. -/
def set {V : Type} (st : CacheManager V) (now : ℚ) (key : String) (v : V) :
    CacheManager V :=
  { st with cache := alSet st.cache key v, timestamps := alSet st.timestamps key now }

/-- `CacheManager.clear()` with no key (cache.py 79-84): drop everything. -/
def clearAll {V : Type} (st : CacheManager V) : CacheManager V :=
  { st with cache := [], timestamps := [] }

/-- `CacheManager.clear(key)` (cache.py 85-92): drop one entry when
present, silent no-op otherwise. -/
def clearKey {V : Type} (st : CacheManager V) (key : String) : CacheManager V :=
  match alGet st.cache key with
  | some _ => { st with cache := alDel st.cache key, timestamps := alDel st.timestamps key }
  | none => st

/-- `CacheManager.invalidate_expired` (cache.py 94-115): collect the keys
of `_timestamps` whose age exceeds the TTL, delete each from both maps,
and return how many were removed. -/
def invalidate_expired {V : Type} (st : CacheManager V) (now : ℚ) :
    Nat × CacheManager V :=
  let expired_keys := (st.timestamps.filter (fun kv => decide (st.ttl_seconds < now - kv.2))).map Prod.fst
  (expired_keys.length,
   { st with cache := expired_keys.foldl alDel st.cache,
             timestamps := expired_keys.foldl alDel st.timestamps })

/-- One row of `CacheManager.get_stats`'s `entries` list. -/
structure StatEntry where
  key : String
  age_seconds : ℚ
  expired : Bool

/-- `CacheManager.get_stats` (cache.py 117-142): read-only snapshot of
entry count, TTL and per-entry ages. -/
def get_stats {V : Type} (st : CacheManager V) (now : ℚ) :
    Nat × ℚ × List StatEntry :=
  (st.cache.length, st.ttl_seconds,
   st.cache.map (fun kv =>
     let timestamp := (alGet st.timestamps kv.1).getD 0
     let age := now - timestamp
     { key := kv.1, age_seconds := age, expired := decide (st.ttl_seconds < age) }))

end CacheManager

/-! ## resolver.py — `EntityResolver`

Candidates are arbitrary Python values (the elements of the fetched list);
the key function returns `none` to model a `KeyError`/`TypeError` raised on
a malformed candidate, which `_fuzzy_match` catches and skips.  Match scores
(`fuzz.token_sort_ratio` floats) are rationals. -/

/-- `models.ResolutionMatch` (models.py 18-24): a plain dataclass, so `id`
carries whatever `candidate_data.get("id")` produced, `None` included. -/
structure ResolutionMatch where
  id : Option PyVal
  name : String
  match_score : ℚ
  additional_info : Obj

/-- One insertion step of the stable descending sort: the element moves
past strictly greater scores and lands before the first score `≤` its own,
so it stays after every earlier equal-score element. -/
def insertDesc {C : Type} (x : ℚ × C) : List (ℚ × C) → List (ℚ × C)
  | [] => [x]
  | y :: ys => if x.1 < y.1 then y :: insertDesc x ys else x :: y :: ys

/-- Python's `list.sort(key=lambda x: x[0], reverse=True)` on
`(score, candidate)` pairs (resolver.py 88): a stable sort by score
descending. -/
def sortDesc {C : Type} : List (ℚ × C) → List (ℚ × C)
  | [] => []
  | x :: xs => insertDesc x (sortDesc xs)

/-- Candidate-string extraction loop of `_fuzzy_match` (resolver.py 64-72):
apply the key function to each candidate, skipping candidates where it
raises (`kf c = none`) or returns a falsy (empty) string. -/
def candidateStrings (kf : PyVal → Option String) (candidates : List PyVal) :
    List (String × PyVal) :=
  candidates.filterMap (fun c =>
    match kf c with
    | none => none
    | some s => if s = "" then none else some (s, c))

/-- `candidate_data.get("id")`: dictionary lookup, `none` on a non-dict
(unreachable for candidates that passed a key function). -/
def pyGetId (c : PyVal) : Option PyVal :=
  match c with
  | PyVal.vDict o => dictGet o "id"
  | _ => none

/-- The `additional_info` comprehension of `_fuzzy_match`
(resolver.py 98-101): keep every candidate field whose key is not `"id"`
and whose value is not `None`.  Note the Python code filters only the key
`"id"`, despite its comment announcing that `name` is excluded too. -/
def additionalInfo (c : PyVal) : Obj :=
  match c with
  | PyVal.vDict o => o.filter (fun kv => !(kv.1 == "id") && (match kv.2 with
      | PyVal.vNone => false
      | _ => true))
  | _ => []

/-- Construction of one `ResolutionMatch` from a retained
`(score, candidate)` pair (resolver.py 92-108). -/
def mkMatch (kf : PyVal → Option String) (s : ℚ) (c : PyVal) : ResolutionMatch :=
  { id := pyGetId c
  , name := (kf c).getD ""
  , match_score := s
  , additional_info := additionalInfo c }

/-- Scoring-and-threshold loop of `_fuzzy_match` (resolver.py 79-85): score
each extracted candidate string against the lowered query and retain pairs
scoring at least the threshold, in input order. -/
def scoredRetained (score : String → String → ℚ) (query : String)
    (kf : PyVal → Option String) (candidates : List PyVal) (threshold : ℚ) :
    List (ℚ × PyVal) :=
  (candidateStrings kf candidates).filterMap (fun p =>
    let s := score (pyLower query) (pyLower p.1)
    if threshold ≤ s then some (s, p.2) else none)

/-- `EntityResolver._fuzzy_match` (resolver.py 38-111): guard the empty
query / empty candidate list, extract candidate strings, score and filter
by threshold, stable-sort descending by score, and build the matches. -/
def fuzzyMatch (score : String → String → ℚ) (query : String)
    (candidates : List PyVal) (kf : PyVal → Option String) (threshold : ℚ) :
    List ResolutionMatch :=
  if query == "" || candidates.isEmpty then []
  else
    let cstrs := candidateStrings kf candidates
    if cstrs.isEmpty then []
    else
      (sortDesc (scoredRetained score query kf candidates threshold)).map
        (fun p => mkMatch kf p.1 p.2)

/-- `get_friend_name` (resolver.py 146-151): join first and last name,
strip, fall back to the email when the result is empty; raises on a
non-dict candidate. -/
def getFriendName (c : PyVal) : Option String :=
  match c with
  | PyVal.vDict o =>
    let full_name := pyStrip (getStrD o "first_name" "" ++ " " ++ getStrD o "last_name" "")
    some (if full_name = "" then getStrD o "email" "" else full_name)
  | _ => none

/-- `get_group_name` (resolver.py 196-197). -/
def getGroupName (c : PyVal) : Option String :=
  match c with
  | PyVal.vDict o => some (getStrD o "name" "")
  | _ => none

/-- `get_category_name` (resolver.py 258-260): prefer the synthesized
`full_name` field, fall back to the plain `name`. -/
def getCategoryName (c : PyVal) : Option String :=
  match c with
  | PyVal.vDict o =>
    some (match dictGet o "full_name" with
      | some (PyVal.vStr s) => s
      | some _ => ""
      | none => getStrD o "name" "")
  | _ => none

/-- The flattening loop of `resolve_category` (resolver.py 240-253): each
top-level category is a candidate as-is, and each of its subcategories is
additionally a candidate as a copy extended with the synthesized
`full_name` field `"{parent} - {sub}"`. -/
def flattenCategories (categories : List PyVal) : List PyVal :=
  categories.flatMap (fun category =>
    match category with
    | PyVal.vDict o =>
      category :: (getListD o "subcategories").map (fun subcategory =>
        match subcategory with
        | PyVal.vDict so =>
          PyVal.vDict (dictSet so "full_name"
            (PyVal.vStr (getStrD o "name" "" ++ " - " ++ getStrD so "name" "")))
        | other => other)
    | other => [other])

/-- The two session caches of `EntityResolver` (resolver.py 34-35):
`None` until the first successful fetch of the corresponding list. -/
structure ResolverState where
  friendsCache : Option (List PyVal)
  groupsCache : Option (List PyVal)

/-- A fresh resolver as built by `EntityResolver.__init__`. -/
def ResolverState.init : ResolverState := ⟨none, none⟩

/-- The observable outcome of one resolution call: the returned matches or
the propagated fetch exception, the resolver state it leaves behind, and
whether a fetch was issued to the remote data source. -/
structure ResolveOutcome (ε : Type) where
  result : Except ε (List ResolutionMatch)
  state : ResolverState
  fetched : Bool

/-- `EntityResolver.resolve_friend` (resolver.py 114-162): fetch and cache
the friends list when the session cache is unset (an exception propagates
and leaves the cache unset), then fuzzy-match over the cached list with
`get_friend_name`. -/
def resolveFriend {ε : Type} (score : String → String → ℚ)
    (fetch : Except ε Obj) (st : ResolverState) (query : String) (threshold : ℚ) :
    ResolveOutcome ε :=
  match st.friendsCache with
  | some friends =>
    { result := .ok (fuzzyMatch score query friends getFriendName threshold)
    , state := st, fetched := false }
  | none =>
    match fetch with
    | .error e => { result := .error e, state := st, fetched := true }
    | .ok resp =>
      let friends := getListD resp "friends"
      { result := .ok (fuzzyMatch score query friends getFriendName threshold)
      , state := { st with friendsCache := some friends }, fetched := true }

/-- `EntityResolver.resolve_group` (resolver.py 164-208): same caching
discipline over the groups list with `get_group_name`. -/
def resolveGroup {ε : Type} (score : String → String → ℚ)
    (fetch : Except ε Obj) (st : ResolverState) (query : String) (threshold : ℚ) :
    ResolveOutcome ε :=
  match st.groupsCache with
  | some groups =>
    { result := .ok (fuzzyMatch score query groups getGroupName threshold)
    , state := st, fetched := false }
  | none =>
    match fetch with
    | .error e => { result := .error e, state := st, fetched := true }
    | .ok resp =>
      let groups := getListD resp "groups"
      { result := .ok (fuzzyMatch score query groups getGroupName threshold)
      , state := { st with groupsCache := some groups }, fetched := true }

/-- `EntityResolver.resolve_category` (resolver.py 210-271): always ask the
client for categories (which consults its own TTL cache), flatten the
taxonomy, and fuzzy-match with `get_category_name`.  The resolver state is
untouched. -/
def resolveCategory {ε : Type} (score : String → String → ℚ)
    (fetch : Except ε Obj) (st : ResolverState) (query : String) (threshold : ℚ) :
    ResolveOutcome ε :=
  match fetch with
  | .error e => { result := .error e, state := st, fetched := true }
  | .ok resp =>
    let categories := getListD resp "categories"
    let all_categories := flattenCategories categories
    { result := .ok (fuzzyMatch score query all_categories getCategoryName threshold)
    , state := st, fetched := true }

/-- The combined mutable state the resolver's cache-clearing touches: the
resolver's two session caches plus the client's TTL cache (client.py holds
the `CacheManager` the category/currency fetches go through). -/
structure SystemState (V : Type) where
  resolver : ResolverState
  clientCache : CacheManager V

/-- `EntityResolver.clear_cache` (resolver.py 273-281): reset both session
caches to `None`; the client's `CacheManager` is never mentioned. -/
def clearCache {V : Type} (st : SystemState V) : SystemState V :=
  { st with resolver := { friendsCache := none, groupsCache := none } }

/-! ## Heap model of the flattening loop

`resolve_category` iterates over dictionaries held by the client's TTL
cache.  Whether the loop mutates those shared dictionaries is a question
about Python object identity, so here the same loop (resolver.py 240-253)
is modelled over an explicit store: dictionaries live at numeric addresses,
`subcategories` fields hold lists of addresses, `.copy()` allocates a fresh
address, and `d[k] = v` writes through an address. -/

/-- A field value inside a stored dictionary: the `subcategories` field is
a list of references to other stored dictionaries; every other field is an
ordinary scalar or structural value. -/
inductive HVal where
  | refs (addrs : List Nat)
  | val (v : PyVal)

/-- A heap-resident Python dictionary. -/
abbrev HDict := List (String × HVal)

/-- The heap: dictionaries indexed by address. -/
abbrev Store := List HDict

/-- Dereference an address (reads of valid addresses only occur). -/
def Store.read (st : Store) (a : Nat) : HDict := st.getD a []

/-- `category.get("subcategories", [])` read through the heap. -/
def subRefs (d : HDict) : List Nat :=
  match alGet d "subcategories" with
  | some (HVal.refs l) => l
  | _ => []

/-- `d.get(k, "")` for a string-valued field of a stored dictionary. -/
def hGetStr (d : HDict) (k : String) : String :=
  match alGet d k with
  | some (HVal.val (PyVal.vStr s)) => s
  | _ => ""

/-- The body of the inner `for subcategory in subcategories` loop
(resolver.py 247-253): read the subcategory and the parent's name, make a
shallow copy at a fresh address (`subcategory.copy()`), store the
synthesized `full_name` into the copy, and append the copy's address to
the candidate list. -/
def subStep (catAddr : Nat) (acc : Store × List Nat) (subAddr : Nat) :
    Store × List Nat :=
  let st := acc.1
  let sd := st.read subAddr
  let parent_name := hGetStr (st.read catAddr) "name"
  let subcategory_name := hGetStr sd "name"
  let copyAddr := st.length
  let st2 := st ++ [sd]
  let st3 := st2.set copyAddr
    (alSet sd "full_name" (HVal.val (PyVal.vStr (parent_name ++ " - " ++ subcategory_name))))
  (st3, acc.2 ++ [copyAddr])

/-- The body of the outer `for category in categories` loop
(resolver.py 241-253): append the category itself (by reference), then
process each subcategory. -/
def catStep (acc : Store × List Nat) (catAddr : Nat) : Store × List Nat :=
  let subs := subRefs (acc.1.read catAddr)
  subs.foldl (subStep catAddr) (acc.1, acc.2 ++ [catAddr])

/-- The whole flattening loop of `resolve_category` over the heap: from
the cached category addresses, produce the grown heap and the
`all_categories` candidate address list. -/
def flattenStore (st : Store) (cats : List Nat) : Store × List Nat :=
  cats.foldl catStep (st, [])

/-- The heap after `n` further `resolve_category` calls, each re-running
the flattening loop over the same cached category addresses. -/
def iterFlattenStore (cats : List Nat) : Nat → Store → Store
  | 0, st => st
  | n + 1, st => iterFlattenStore cats n (flattenStore st cats).1

/-- The dictionary contents a flattening run exposes as candidates, as a
pure function of the heap it started from: each category's own dictionary
followed by each subcategory's dictionary extended with the synthesized
`full_name`. -/
def flattenSpecDicts (st : Store) (cats : List Nat) : List HDict :=
  cats.flatMap (fun c =>
    let d := st.read c
    d :: (subRefs d).map (fun s =>
      alSet (st.read s) "full_name"
        (HVal.val (PyVal.vStr (hGetStr d "name" ++ " - " ++ hGetStr (st.read s) "name")))))

/-- Validity of the cached category addresses with respect to a heap: the
categories and all their subcategory references dereference inside the
heap. -/
def ValidCats (st : Store) (cats : List Nat) : Prop :=
  ∀ c ∈ cats, c < st.length ∧ ∀ s ∈ subRefs (st.read c), s < st.length

/-- `st'` extends `st`: the heap only grew, and every dictionary that
already existed is unchanged. -/
def StoreExtends (st st' : Store) : Prop :=
  st.length ≤ st'.length ∧ ∀ a, a < st.length → st'.read a = st.read a

/-- Heap-resident `{id: 1, name: "Home", subcategories: [ref 1]}`. -/
def homeHD : HDict :=
  [("id", HVal.val (PyVal.vInt 1)), ("name", HVal.val (PyVal.vStr "Home")),
   ("subcategories", HVal.refs [1])]

/-- Heap-resident `{id: 2, name: "Rent"}`. -/
def rentHD : HDict :=
  [("id", HVal.val (PyVal.vInt 2)), ("name", HVal.val (PyVal.vStr "Rent"))]

/-- A concrete heap as the TTL cache would hold it after fetching the
`Home`/`Rent` taxonomy: address 0 the category, address 1 its
subcategory. -/
def demoStore : Store := [homeHD, rentHD]

/-! ## Concrete instantiations used by closed theorems -/

/-- A stand-in scoring function for closed instantiations.  rapidfuzz's
`token_sort_ratio` scores two identical strings 100, which is the only
behaviour the closed theorems below evaluate; on unequal strings this stub
under-reports and is never relied upon. -/
def identityScore (q c : String) : ℚ := if q = c then 100 else 0

/-- A concrete friends-list response, as `get_friends` would return it. -/
def sampleFriendsResp : Obj :=
  [("friends", PyVal.vList
    [PyVal.vDict [("id", PyVal.vInt 1), ("first_name", PyVal.vStr "John"),
                  ("last_name", PyVal.vStr "Smith"), ("email", PyVal.vStr "john@x.io")]])]

/-- A concrete group candidate, used for closed instantiations of the
sorting/threshold theorems. -/
def johnCandV : PyVal := PyVal.vDict [("id", PyVal.vInt 1), ("name", PyVal.vStr "John")]

/-- A second candidate with the same matching string as `johnCandV`. -/
def johnCandV2 : PyVal := PyVal.vDict [("id", PyVal.vInt 2), ("name", PyVal.vStr "John")]

/-- The subcategory `{id: 2, name: "Rent"}` of the spec's concrete
flattening scenario. -/
def rentFields : Obj := [("id", PyVal.vInt 2), ("name", PyVal.vStr "Rent")]

/-- The field list of the category `{id: 1, name: "Home",
subcategories: [{id: 2, name: "Rent"}]}`. -/
def homeFields : Obj :=
  [("id", PyVal.vInt 1), ("name", PyVal.vStr "Home"),
   ("subcategories", PyVal.vList [PyVal.vDict rentFields])]

/-- The category dictionary of the concrete flattening scenario. -/
def homeCategory : PyVal := PyVal.vDict homeFields

/-! ## Operation traces over the Time-Bounded Cache

The public cache API as an operation alphabet, so that the TTL invariant
and the reachable-state safety properties quantify over arbitrary
interleavings of `get`/`set`/`clear`/`invalidate_expired`/`get_stats`
calls (each carrying its wall-clock instant). -/

/-- One public `CacheManager` call together with the wall-clock instant at
which it runs. -/
inductive CacheOp (V : Type) where
  | opGet (t : ℚ) (k : String)
  | opSet (t : ℚ) (k : String) (v : V)
  | opClearAll
  | opClearKey (k : String)
  | opSweep (t : ℚ)
  | opStats (t : ℚ)

/-- State effect of one public cache call (`get_stats` reads only). -/
def runOp {V : Type} (st : CacheManager V) : CacheOp V → CacheManager V
  | .opGet t k => (st.get t k).2
  | .opSet t k v => st.set t k v
  | .opClearAll => st.clearAll
  | .opClearKey k => st.clearKey k
  | .opSweep t => (st.invalidate_expired t).2
  | .opStats _ => st

/-- State after a sequence of public cache calls. -/
def runOps {V : Type} (st : CacheManager V) (ops : List (CacheOp V)) : CacheManager V :=
  ops.foldl runOp st

/-- An intervening operation the TTL-invariant claim allows between the
write of key `k` at time `t` and the read at time `t'`: it is not a `set`
of `k` nor a `clear` touching `k`, and it runs at an instant inside
`[t, t']` (the wall clock is monotone). -/
def SafeFor {V : Type} (k : String) (t t' : ℚ) : CacheOp V → Prop
  | .opGet u _ => t ≤ u ∧ u ≤ t'
  | .opSet u k2 _ => k2 ≠ k ∧ t ≤ u ∧ u ≤ t'
  | .opClearAll => False
  | .opClearKey k2 => k2 ≠ k
  | .opSweep u => t ≤ u ∧ u ≤ t'
  | .opStats _ => True

/-- A Python dict has no duplicate keys; the association lists that model
the cache's internal dicts satisfy this for every reachable state. -/
def NodupKeys {V : Type} (l : List (String × V)) : Prop :=
  (l.map Prod.fst).Nodup

/-- Invariant carried across the intervening operations of the TTL claim:
both internal maps are duplicate-free, and the written key either still
holds the written value with its write-time stamp, or has been (lawfully)
evicted — which can only have happened if the write is already older than
the TTL at `t'`. -/
def C3Inv {V : Type} (ttl0 : ℚ) (k : String) (v : V) (t t' : ℚ)
    (st1 : CacheManager V) : Prop :=
  NodupKeys st1.cache ∧ NodupKeys st1.timestamps ∧
  ((alGet st1.cache k = some v ∧ alGet st1.timestamps k = some t) ∨
   (alGet st1.cache k = none ∧ alGet st1.timestamps k = none ∧ ttl0 < t' - t))

/-- The structural health of a cache state: both internal dicts are
duplicate-free and hold exactly the same keys.  This is what makes the
paired `del self._cache[key]; del self._timestamps[key]` statements of
`get` and `invalidate_expired` safe. -/
def KeysGood {V : Type} (st : CacheManager V) : Prop :=
  NodupKeys st.cache ∧ NodupKeys st.timestamps ∧
  ∀ key, (alGet st.cache key).isSome ↔ (alGet st.timestamps key).isSome

/-! ## Association-list lemmas (Python dict semantics) -/

theorem alGet_alSet_self {V : Type} (m : List (String × V)) (k : String) (v : V) :
    alGet (alSet m k v) k = some v := by
  induction m with
  | nil => simp [alGet, alSet]
  | cons kv rest ih =>
    obtain ⟨k', v'⟩ := kv
    by_cases h : k' = k
    · simp [alSet, h, alGet]
    · simp [alSet, h, alGet, ih]

theorem alGet_alSet_ne {V : Type} (m : List (String × V)) {k k2 : String} (v : V)
    (hne : k ≠ k2) : alGet (alSet m k v) k2 = alGet m k2 := by
  induction m with
  | nil => simp [alGet, alSet, hne]
  | cons kv rest ih =>
    obtain ⟨k', v'⟩ := kv
    by_cases h : k' = k
    · subst h
      simp [alSet, alGet, hne]
    · simp [alSet, h, alGet, ih]

theorem alGet_alDel_ne {V : Type} (m : List (String × V)) {k k2 : String}
    (hne : k ≠ k2) : alGet (alDel m k) k2 = alGet m k2 := by
  induction m with
  | nil => simp [alDel]
  | cons kv rest ih =>
    obtain ⟨k', v'⟩ := kv
    by_cases h : k' = k
    · subst h
      simp [alDel, alGet, hne]
    · simp [alDel, h, alGet, ih]

theorem alGet_eq_none_iff {V : Type} (m : List (String × V)) (k : String) :
    alGet m k = none ↔ k ∉ m.map Prod.fst := by
  induction m with
  | nil => simp [alGet]
  | cons kv rest ih =>
    obtain ⟨k', v'⟩ := kv
    by_cases h : k' = k
    · simp [alGet, h]
    · simp [alGet, h, ih, Ne.symm h]

theorem alGet_isSome_iff {V : Type} (m : List (String × V)) (k : String) :
    (alGet m k).isSome ↔ k ∈ m.map Prod.fst := by
  rw [← not_iff_not]
  simp [Option.not_isSome_iff_eq_none, alGet_eq_none_iff]

theorem alDel_keys_sublist {V : Type} (m : List (String × V)) (k : String) :
    ((alDel m k).map Prod.fst).Sublist (m.map Prod.fst) := by
  induction m with
  | nil => simp [alDel]
  | cons kv rest ih =>
    obtain ⟨k', v'⟩ := kv
    by_cases h : k' = k
    · simp only [alDel, if_pos h, List.map_cons]
      exact (List.sublist_cons_self _ _)
    · simp only [alDel, if_neg h, List.map_cons]
      exact ih.cons₂ k'

theorem nodupKeys_alDel {V : Type} {m : List (String × V)} (k : String)
    (h : NodupKeys m) : NodupKeys (alDel m k) :=
  (alDel_keys_sublist m k).nodup h

theorem alGet_alDel_self {V : Type} {m : List (String × V)} (k : String)
    (h : NodupKeys m) : alGet (alDel m k) k = none := by
  induction m with
  | nil => simp [alDel, alGet]
  | cons kv rest ih =>
    obtain ⟨k', v'⟩ := kv
    have h' : k' ∉ rest.map Prod.fst ∧ NodupKeys rest := by
      simpa [NodupKeys] using h
    by_cases hh : k' = k
    · subst hh
      simp only [alDel, if_pos rfl]
      exact (alGet_eq_none_iff rest k').mpr h'.1
    · simp only [alDel, if_neg hh, alGet]
      simp [hh, ih h'.2]

theorem mem_keys_alSet {V : Type} (m : List (String × V)) (k k2 : String) (v : V) :
    k2 ∈ (alSet m k v).map Prod.fst ↔ k2 ∈ m.map Prod.fst ∨ k2 = k := by
  induction m with
  | nil => simp [alSet]
  | cons kv rest ih =>
    obtain ⟨k', v'⟩ := kv
    by_cases h : k' = k
    · have he : alSet ((k', v') :: rest) k v = (k, v) :: rest := by
        unfold alSet
        rw [if_pos h]
      rw [he]
      simp only [List.map_cons, List.mem_cons, h]
      tauto
    · simp only [alSet, if_neg h, List.map_cons, List.mem_cons, ih]
      tauto

theorem nodupKeys_alSet {V : Type} {m : List (String × V)} (k : String) (v : V)
    (h : NodupKeys m) : NodupKeys (alSet m k v) := by
  induction m with
  | nil => simp [alSet, NodupKeys]
  | cons kv rest ih =>
    obtain ⟨k', v'⟩ := kv
    have h' : k' ∉ rest.map Prod.fst ∧ NodupKeys rest := by
      simpa [NodupKeys] using h
    by_cases hh : k' = k
    · subst hh
      simp only [alSet, if_pos rfl]
      simpa [NodupKeys] using h
    · simp only [alSet, if_neg hh]
      have hkmem : k' ∉ (alSet rest k v).map Prod.fst := by
        rw [mem_keys_alSet]
        rintro (hm | rfl)
        · exact h'.1 hm
        · exact hh rfl
      simpa [NodupKeys] using And.intro hkmem (ih h'.2)

theorem alGet_mem_eq {V : Type} {m : List (String × V)} {k : String} {x : V}
    (h : NodupKeys m) (hm : (k, x) ∈ m) : alGet m k = some x := by
  induction m with
  | nil => cases hm
  | cons kv rest ih =>
    obtain ⟨k', v'⟩ := kv
    have h' : k' ∉ rest.map Prod.fst ∧ NodupKeys rest := by
      simpa [NodupKeys] using h
    rcases List.mem_cons.mp hm with heq | hmem
    · cases heq
      simp [alGet]
    · have hne : k' ≠ k := by
        rintro rfl
        exact h'.1 (List.mem_map.mpr ⟨(k', x), hmem, rfl⟩)
      simp [alGet, hne, ih h'.2 hmem]

theorem alGet_foldl_alDel {V : Type} (l : List String) (m : List (String × V))
    (k : String) (h : NodupKeys m) :
    alGet (l.foldl alDel m) k = if k ∈ l then none else alGet m k := by
  induction l generalizing m with
  | nil => simp
  | cons a l' ih =>
    have hd : NodupKeys (alDel m a) := nodupKeys_alDel a h
    by_cases hk : k = a
    · subst hk
      simp only [List.foldl_cons, ih (alDel m k) hd, List.mem_cons, true_or, if_pos]
      by_cases hmem : k ∈ l' <;> simp [hmem, alGet_alDel_self k h]
    · simp only [List.foldl_cons, ih (alDel m a) hd, List.mem_cons]
      have : alGet (alDel m a) k = alGet m k := alGet_alDel_ne m (Ne.symm hk)
      by_cases hmem : k ∈ l' <;> simp [hmem, hk, this]

theorem nodupKeys_foldl_alDel {V : Type} (l : List String) {m : List (String × V)}
    (h : NodupKeys m) : NodupKeys (l.foldl alDel m) := by
  induction l generalizing m with
  | nil => exact h
  | cons a l' ih => exact ih (nodupKeys_alDel a h)

/-! ## Properties of the stable descending sort -/

theorem insertDesc_perm {C : Type} (x : ℚ × C) (l : List (ℚ × C)) :
    (insertDesc x l).Perm (x :: l) := by
  induction l with
  | nil => simp [insertDesc]
  | cons y ys ih =>
    by_cases h : x.1 < y.1
    · simp only [insertDesc, if_pos h]
      exact (ih.cons y).trans (List.Perm.swap x y ys)
    · simp [insertDesc, if_neg h]

theorem sortDesc_perm {C : Type} (l : List (ℚ × C)) : (sortDesc l).Perm l := by
  induction l with
  | nil => simp [sortDesc]
  | cons x xs ih =>
    exact ((insertDesc_perm x (sortDesc xs)).trans (ih.cons x))

theorem mem_insertDesc {C : Type} {x a : ℚ × C} {l : List (ℚ × C)} :
    a ∈ insertDesc x l ↔ a = x ∨ a ∈ l := by
  rw [(insertDesc_perm x l).mem_iff, List.mem_cons]

theorem insertDesc_sorted {C : Type} (x : ℚ × C) {l : List (ℚ × C)}
    (h : l.Pairwise (fun a b => b.1 ≤ a.1)) :
    (insertDesc x l).Pairwise (fun a b => b.1 ≤ a.1) := by
  induction l with
  | nil => simp [insertDesc]
  | cons y ys ih =>
    rcases List.pairwise_cons.mp h with ⟨hy, hys⟩
    by_cases hlt : x.1 < y.1
    · simp only [insertDesc, if_pos hlt]
      refine List.pairwise_cons.mpr ⟨?_, ih hys⟩
      intro a ha
      rcases mem_insertDesc.mp ha with rfl | ha
      · exact le_of_lt hlt
      · exact hy a ha
    · simp only [insertDesc, if_neg hlt]
      push_neg at hlt
      refine List.pairwise_cons.mpr ⟨?_, h⟩
      intro a ha
      rcases List.mem_cons.mp ha with rfl | ha
      · exact hlt
      · exact le_trans (hy a ha) hlt

theorem sortDesc_sorted {C : Type} (l : List (ℚ × C)) :
    (sortDesc l).Pairwise (fun a b => b.1 ≤ a.1) := by
  induction l with
  | nil => simp [sortDesc]
  | cons x xs ih => exact insertDesc_sorted x ih

theorem filter_insertDesc {C : Type} (x : ℚ × C) (l : List (ℚ × C)) (s : ℚ) :
    (insertDesc x l).filter (fun p => decide (p.1 = s)) =
      if x.1 = s then x :: l.filter (fun p => decide (p.1 = s))
      else l.filter (fun p => decide (p.1 = s)) := by
  induction l with
  | nil => by_cases h : x.1 = s <;> simp [insertDesc, h]
  | cons y ys ih =>
    by_cases hlt : x.1 < y.1
    · simp only [insertDesc, if_pos hlt, List.filter_cons]
      by_cases hx : x.1 = s
      · have hy : ¬ (y.1 = s) := by
          intro hy
          rw [hx, hy] at hlt
          exact lt_irrefl s hlt
        simp [hx, hy, ih]
      · by_cases hy : y.1 = s <;> simp [hx, hy, ih, List.filter_cons]
    · simp only [insertDesc, if_neg hlt, List.filter_cons]
      by_cases hx : x.1 = s <;> simp [hx]

/-- Stability of the model of Python's stable sort: the equal-score
elements of the sorted list are exactly the equal-score elements of the
input, in input order. -/
theorem sortDesc_stable {C : Type} (l : List (ℚ × C)) (s : ℚ) :
    (sortDesc l).filter (fun p => decide (p.1 = s)) =
      l.filter (fun p => decide (p.1 = s)) := by
  induction l with
  | nil => simp [sortDesc]
  | cons x xs ih =>
    simp only [sortDesc, filter_insertDesc, List.filter_cons]
    by_cases hx : x.1 = s <;> simp [hx, ih]

/-- Membership characterization of the fuzzy-match output: a match occurs
iff the guards pass and it is built from a retained scored pair. -/
theorem mem_fuzzyMatch {score : String → String → ℚ} {query : String}
    {candidates : List PyVal} {kf : PyVal → Option String} {threshold : ℚ}
    {m : ResolutionMatch} :
    m ∈ fuzzyMatch score query candidates kf threshold ↔
      ¬(query = "") ∧ ¬(candidates = []) ∧
      ∃ p ∈ scoredRetained score query kf candidates threshold,
        m = mkMatch kf p.1 p.2 := by
  unfold fuzzyMatch
  by_cases hq : query = ""
  · simp [hq]
  · by_cases hc : candidates = []
    · simp [hq, hc]
    · have hg : (query == "" || candidates.isEmpty) = false := by
        simp [hq, List.isEmpty_iff, hc]
      simp only [hg, Bool.false_eq_true, if_false]
      by_cases he : (candidateStrings kf candidates).isEmpty
      · have : candidateStrings kf candidates = [] := List.isEmpty_iff.mp he
        simp only [he, if_true]
        have hsr : scoredRetained score query kf candidates threshold = [] := by
          unfold scoredRetained
          rw [this]
          rfl
        simp [hq, hc, hsr]
      · simp only [he, Bool.false_eq_true, if_false, List.mem_map,
          (sortDesc_perm (scoredRetained score query kf candidates threshold)).mem_iff]
        constructor
        · rintro ⟨p, hp, rfl⟩
          exact ⟨hq, hc, p, hp, rfl⟩
        · rintro ⟨-, -, p, hp, rfl⟩
          exact ⟨p, hp, rfl⟩

/-! ## Theorems -/

/-- **C1**: the spec's data model (and the code's own comment at
resolver.py 97, "exclude id and name to avoid duplication") require
`additional_info` to exclude both the `id` and the `name` field, but the
comprehension at resolver.py 98-101 filters only the key `"id"`.  On the
candidate `{id: 2, name: "Rent"}` with query `"Rent"` and threshold 70 the
code returns one match whose `additional_info` is exactly
`{"name": "Rent"}` — the candidate's name field is retained. -/
theorem c1_additional_info_keeps_name_field :
    fuzzyMatch identityScore "Rent"
      [PyVal.vDict [("id", PyVal.vInt 2), ("name", PyVal.vStr "Rent")]]
      getGroupName 70
    = [{ id := some (PyVal.vInt 2), name := "Rent", match_score := 100,
         additional_info := [("name", PyVal.vStr "Rent")] }] := by
  rfl

/-- **C2 counterexample**: the claim says an empty query yields an empty
result *with no fetch issued to the Remote Data Source*, but
`resolve_friend` fetches the friends list before `_fuzzy_match` ever looks
at the query: with a cold session cache and query `""` the fetch is
issued. -/
theorem c2_empty_query_still_fetches :
    (resolveFriend identityScore (Except.ok sampleFriendsResp : Except Unit Obj)
      ResolverState.init "" 70).fetched = true := by
  rfl

/-- **C2 amended**: resolving an empty query (and likewise resolving
against an empty candidate list) returns the empty sequence with no
candidate scored (the result is independent of the scoring function);
however `resolve_friend`/`resolve_group` still fetch the list when their
session cache is cold, and `resolve_category` always issues its client
fetch — only a warm session cache suppresses the fetch. -/
theorem c2_empty_inputs_empty_result :
    (∀ (score : String → String → ℚ) (cands : List PyVal)
       (kf : PyVal → Option String) (thr : ℚ),
       fuzzyMatch score "" cands kf thr = []) ∧
    (∀ (score : String → String → ℚ) (q : String)
       (kf : PyVal → Option String) (thr : ℚ),
       fuzzyMatch score q [] kf thr = []) ∧
    (∀ (score : String → String → ℚ) (resp : Obj) (st : ResolverState) (thr : ℚ),
       (resolveFriend score (Except.ok resp : Except Unit Obj) st "" thr).result = .ok [] ∧
       (resolveGroup score (Except.ok resp : Except Unit Obj) st "" thr).result = .ok [] ∧
       (resolveCategory score (Except.ok resp : Except Unit Obj) st "" thr).result = .ok []) ∧
    (∀ (score : String → String → ℚ) (fetch : Except Unit Obj) (st : ResolverState)
       (q : String) (thr : ℚ) (l : List PyVal),
       (st.friendsCache = some l → (resolveFriend score fetch st q thr).fetched = false) ∧
       (st.groupsCache = some l → (resolveGroup score fetch st q thr).fetched = false)) := by
  have hq : ∀ (score : String → String → ℚ) (cands : List PyVal)
      (kf : PyVal → Option String) (thr : ℚ), fuzzyMatch score "" cands kf thr = [] := by
    intro score cands kf thr
    simp [fuzzyMatch]
  refine ⟨hq, ?_, ?_, ?_⟩
  · intro score q kf thr
    simp [fuzzyMatch]
  · intro score resp st thr
    refine ⟨?_, ?_, ?_⟩
    · cases h : st.friendsCache <;> simp [resolveFriend, h, hq]
    · cases h : st.groupsCache <;> simp [resolveGroup, h, hq]
    · simp [resolveCategory, hq]
  · intro score fetch st q thr l
    constructor
    · intro h; simp [resolveFriend, h]
    · intro h; simp [resolveGroup, h]

/-- **C2 amended, witness**: the warm-cache clauses discharged at a
concrete state. -/
theorem c2_empty_inputs_empty_result_witness :
    (resolveFriend identityScore (Except.ok [] : Except Unit Obj)
      ⟨some [], some []⟩ "John" 70).fetched = false ∧
    (resolveFriend identityScore (Except.ok sampleFriendsResp : Except Unit Obj)
      ResolverState.init "" 70).result = .ok [] := by
  constructor
  · exact (c2_empty_inputs_empty_result.2.2.2 identityScore
      (Except.ok [] : Except Unit Obj) ⟨some [], some []⟩ "John" 70 []).1 rfl
  · exact (c2_empty_inputs_empty_result.2.2.1 identityScore
      sampleFriendsResp ResolverState.init 70).1

/-- Membership characterization of the retained scored pairs: a pair is
retained iff it is the scored image of an extracted candidate string whose
score reaches the threshold. -/
theorem mem_scoredRetained {score : String → String → ℚ} {query : String}
    {kf : PyVal → Option String} {candidates : List PyVal} {threshold : ℚ}
    {p : ℚ × PyVal} :
    p ∈ scoredRetained score query kf candidates threshold ↔
      ∃ cs ∈ candidateStrings kf candidates,
        threshold ≤ score (pyLower query) (pyLower cs.1) ∧
        p = (score (pyLower query) (pyLower cs.1), cs.2) := by
  unfold scoredRetained
  rw [List.mem_filterMap]
  constructor
  · rintro ⟨cs, hcs, hp⟩
    dsimp only at hp
    by_cases ht : threshold ≤ score (pyLower query) (pyLower cs.1)
    · rw [if_pos ht] at hp
      exact ⟨cs, hcs, ht, (Option.some_inj.mp hp).symm⟩
    · rw [if_neg ht] at hp
      cases hp
  · rintro ⟨cs, hcs, ht, rfl⟩
    exact ⟨cs, hcs, by dsimp only; rw [if_pos ht]⟩

/-- One intervening public cache call that is safe for key `k` preserves
the TTL invariant's carried state (`C3Inv`) and the configured TTL. -/
theorem c3_runOp_preserves {V : Type} {ttl0 : ℚ} {k : String} {v : V} {t t' : ℚ}
    (op : CacheOp V) (st1 : CacheManager V) (hop : SafeFor k t t' op)
    (httl : st1.ttl_seconds = ttl0) (hinv : C3Inv ttl0 k v t t' st1) :
    (runOp st1 op).ttl_seconds = ttl0 ∧ C3Inv ttl0 k v t t' (runOp st1 op) := by
  obtain ⟨hnc, hnt, hdisj⟩ := hinv
  cases op with
  | opGet u k2 =>
    obtain ⟨htu, hut⟩ := hop
    rw [show runOp st1 (CacheOp.opGet u k2) = (st1.get u k2).2 from rfl]
    unfold CacheManager.get
    cases hc : alGet st1.cache k2 with
    | none => exact ⟨httl, hnc, hnt, hdisj⟩
    | some w =>
      dsimp only
      by_cases hexp : st1.ttl_seconds < u - (alGet st1.timestamps k2).getD 0
      · rw [if_pos hexp]
        refine ⟨httl, nodupKeys_alDel k2 hnc, nodupKeys_alDel k2 hnt, ?_⟩
        by_cases hk : k2 = k
        · subst hk
          rcases hdisj with ⟨hck, htk⟩ | ⟨hck, htk, _⟩
          · right
            refine ⟨alGet_alDel_self k2 hnc, alGet_alDel_self k2 hnt, ?_⟩
            rw [htk] at hexp
            rw [httl] at hexp
            simp only [Option.getD_some] at hexp
            linarith
          · rw [hck] at hc
            cases hc
        · rcases hdisj with ⟨hck, htk⟩ | ⟨hck, htk, hlt⟩
          · exact Or.inl ⟨(alGet_alDel_ne st1.cache hk).trans hck,
              (alGet_alDel_ne st1.timestamps hk).trans htk⟩
          · exact Or.inr ⟨(alGet_alDel_ne st1.cache hk).trans hck,
              (alGet_alDel_ne st1.timestamps hk).trans htk, hlt⟩
      · rw [if_neg hexp]
        exact ⟨httl, hnc, hnt, hdisj⟩
  | opSet u k2 v2 =>
    obtain ⟨hk2, htu, hut⟩ := hop
    rw [show runOp st1 (CacheOp.opSet u k2 v2) = st1.set u k2 v2 from rfl]
    unfold CacheManager.set
    refine ⟨httl, nodupKeys_alSet k2 v2 hnc, nodupKeys_alSet k2 u hnt, ?_⟩
    rcases hdisj with ⟨hck, htk⟩ | ⟨hck, htk, hlt⟩
    · exact Or.inl ⟨(alGet_alSet_ne st1.cache v2 hk2).trans hck,
        (alGet_alSet_ne st1.timestamps u hk2).trans htk⟩
    · exact Or.inr ⟨(alGet_alSet_ne st1.cache v2 hk2).trans hck,
        (alGet_alSet_ne st1.timestamps u hk2).trans htk, hlt⟩
  | opClearAll => exact hop.elim
  | opClearKey k2 =>
    rw [show runOp st1 (CacheOp.opClearKey k2) = st1.clearKey k2 from rfl]
    unfold CacheManager.clearKey
    cases hc : alGet st1.cache k2 with
    | none => exact ⟨httl, hnc, hnt, hdisj⟩
    | some w =>
      refine ⟨httl, nodupKeys_alDel k2 hnc, nodupKeys_alDel k2 hnt, ?_⟩
      rcases hdisj with ⟨hck, htk⟩ | ⟨hck, htk, hlt⟩
      · exact Or.inl ⟨(alGet_alDel_ne st1.cache hop).trans hck,
          (alGet_alDel_ne st1.timestamps hop).trans htk⟩
      · exact Or.inr ⟨(alGet_alDel_ne st1.cache hop).trans hck,
          (alGet_alDel_ne st1.timestamps hop).trans htk, hlt⟩
  | opSweep u =>
    obtain ⟨htu, hut⟩ := hop
    rw [show runOp st1 (CacheOp.opSweep u) = (st1.invalidate_expired u).2 from rfl]
    unfold CacheManager.invalidate_expired
    dsimp only
    set ek := (st1.timestamps.filter
      (fun kv => decide (st1.ttl_seconds < u - kv.2))).map Prod.fst with hek
    refine ⟨httl, nodupKeys_foldl_alDel ek hnc, nodupKeys_foldl_alDel ek hnt, ?_⟩
    by_cases hm : k ∈ ek
    · right
      refine ⟨(alGet_foldl_alDel ek st1.cache k hnc).trans (if_pos hm),
              (alGet_foldl_alDel ek st1.timestamps k hnt).trans (if_pos hm), ?_⟩
      rcases hdisj with ⟨hck, htk⟩ | ⟨hck, htk, hlt⟩
      · obtain ⟨⟨k1, ts⟩, hmemf, hfst⟩ := List.mem_map.mp hm
        obtain ⟨hmem, hpred⟩ := List.mem_filter.mp hmemf
        dsimp only at hfst
        subst hfst
        have hts : alGet st1.timestamps k1 = some ts := alGet_mem_eq hnt hmem
        rw [htk] at hts
        have hts' : t = ts := Option.some_inj.mp hts
        have hexp : st1.ttl_seconds < u - ts := by
          have := of_decide_eq_true hpred
          exact this
        rw [httl] at hexp
        rw [← hts'] at hexp
        linarith
      · exact hlt
    · rcases hdisj with ⟨hck, htk⟩ | ⟨hck, htk, hlt⟩
      · exact Or.inl ⟨((alGet_foldl_alDel ek st1.cache k hnc).trans (if_neg hm)).trans hck,
          ((alGet_foldl_alDel ek st1.timestamps k hnt).trans (if_neg hm)).trans htk⟩
      · exact Or.inr ⟨((alGet_foldl_alDel ek st1.cache k hnc).trans (if_neg hm)).trans hck,
          ((alGet_foldl_alDel ek st1.timestamps k hnt).trans (if_neg hm)).trans htk, hlt⟩
  | opStats u => exact ⟨httl, hnc, hnt, hdisj⟩

/-- `C3Inv` is preserved by any sequence of safe intervening calls. -/
theorem c3_runOps_preserves {V : Type} {ttl0 : ℚ} {k : String} {v : V} {t t' : ℚ}
    (ops : List (CacheOp V)) (st1 : CacheManager V)
    (hops : ∀ op ∈ ops, SafeFor k t t' op)
    (httl : st1.ttl_seconds = ttl0) (hinv : C3Inv ttl0 k v t t' st1) :
    (runOps st1 ops).ttl_seconds = ttl0 ∧ C3Inv ttl0 k v t t' (runOps st1 ops) := by
  induction ops generalizing st1 with
  | nil => exact ⟨httl, hinv⟩
  | cons op rest ih =>
    have h1 := c3_runOp_preserves op st1 (hops op (List.mem_cons_self _ _)) httl hinv
    exact ih (runOp st1 op) (fun o ho => hops o (List.mem_cons_of_mem _ ho)) h1.1 h1.2

/-- **C3 (TTL invariant)**: write `k ↦ v` at time `t`, run any sequence of
public cache calls that neither `set` nor `clear` `k` (all at instants in
`[t, t']`), then `get k` at `t'`: if the entry's age `t' - t` is at most
the TTL the stored value comes back; if the age exceeds the TTL the read
misses and lazily evicts `k` from both internal maps. -/
theorem c3_ttl_invariant {V : Type} (st : CacheManager V) (k : String) (v : V)
    (t t' : ℚ) (ops : List (CacheOp V))
    (hcn : NodupKeys st.cache) (htn : NodupKeys st.timestamps)
    (hops : ∀ op ∈ ops, SafeFor k t t' op) (htt : t ≤ t') :
    (t' - t ≤ st.ttl_seconds →
       (CacheManager.get (runOps (CacheManager.set st t k v) ops) t' k).1 = some v) ∧
    (st.ttl_seconds < t' - t →
       (CacheManager.get (runOps (CacheManager.set st t k v) ops) t' k).1 = none ∧
       alGet (CacheManager.get (runOps (CacheManager.set st t k v) ops) t' k).2.cache k = none ∧
       alGet (CacheManager.get (runOps (CacheManager.set st t k v) ops) t' k).2.timestamps k
         = none) := by
  have hinv0 : C3Inv st.ttl_seconds k v t t' (CacheManager.set st t k v) :=
    ⟨nodupKeys_alSet k v hcn, nodupKeys_alSet k t htn,
     Or.inl ⟨alGet_alSet_self st.cache k v, alGet_alSet_self st.timestamps k t⟩⟩
  obtain ⟨httl1, hnc1, hnt1, hdisj1⟩ :=
    c3_runOps_preserves ops (CacheManager.set st t k v) hops
      (show (CacheManager.set st t k v).ttl_seconds = st.ttl_seconds from rfl) hinv0
  set st1 := runOps (CacheManager.set st t k v) ops with hst1
  constructor
  · intro hage
    rcases hdisj1 with ⟨hck, htk⟩ | ⟨hck, htk, hlt⟩
    · unfold CacheManager.get
      rw [hck]
      dsimp only
      rw [htk]
      rw [if_neg (by rw [httl1]; simp only [Option.getD_some]; linarith)]
    · linarith
  · intro hage
    rcases hdisj1 with ⟨hck, htk⟩ | ⟨hck, htk, hlt⟩
    · unfold CacheManager.get
      rw [hck]
      dsimp only
      rw [htk]
      rw [if_pos (by rw [httl1]; simp only [Option.getD_some]; linarith)]
      exact ⟨rfl, alGet_alDel_self k hnc1, alGet_alDel_self k hnt1⟩
    · unfold CacheManager.get
      rw [hck]
      exact ⟨rfl, hck, htk⟩

/-- **C3 witness**: TTL 1 cache, write `"categories" ↦ 42` at `t = 0`, no
intervening calls; reading at `t' = 1` (age exactly the TTL, inclusive)
returns the value, and reading at `t' = 2` misses and evicts. -/
theorem c3_ttl_invariant_witness :
    (CacheManager.get (runOps (CacheManager.set (CacheManager.init Nat 1) 0 "categories" 42) [])
       1 "categories").1 = some 42 ∧
    (CacheManager.get (runOps (CacheManager.set (CacheManager.init Nat 1) 0 "categories" 42) [])
       2 "categories").1 = none := by
  constructor
  · exact (c3_ttl_invariant (CacheManager.init Nat 1) "categories" 42 0 1 []
      (by simp [CacheManager.init, NodupKeys]) (by simp [CacheManager.init, NodupKeys])
      (by intro op hop; cases hop) (by norm_num)).1 (by norm_num [CacheManager.init])
  · exact ((c3_ttl_invariant (CacheManager.init Nat 1) "categories" 42 0 2 []
      (by simp [CacheManager.init, NodupKeys]) (by simp [CacheManager.init, NodupKeys])
      (by intro op hop; cases hop) (by norm_num)).2 (by norm_num [CacheManager.init])).1

/-- Every public cache call preserves the structural health of the two
internal maps. -/
theorem keysGood_runOp {V : Type} (st1 : CacheManager V) (op : CacheOp V)
    (h : KeysGood st1) : KeysGood (runOp st1 op) := by
  obtain ⟨hnc, hnt, hiff⟩ := h
  cases op with
  | opGet u k2 =>
    rw [show runOp st1 (CacheOp.opGet u k2) = (st1.get u k2).2 from rfl]
    unfold CacheManager.get
    cases hc : alGet st1.cache k2 with
    | none => exact ⟨hnc, hnt, hiff⟩
    | some w =>
      dsimp only
      by_cases hexp : st1.ttl_seconds < u - (alGet st1.timestamps k2).getD 0
      · rw [if_pos hexp]
        refine ⟨nodupKeys_alDel k2 hnc, nodupKeys_alDel k2 hnt, ?_⟩
        intro key
        by_cases hk : key = k2
        · subst hk
          rw [alGet_alDel_self key hnc, alGet_alDel_self key hnt]
          exact Iff.rfl
        · rw [alGet_alDel_ne st1.cache (Ne.symm hk),
              alGet_alDel_ne st1.timestamps (Ne.symm hk)]
          exact hiff key
      · rw [if_neg hexp]
        exact ⟨hnc, hnt, hiff⟩
  | opSet u k2 v2 =>
    rw [show runOp st1 (CacheOp.opSet u k2 v2) = st1.set u k2 v2 from rfl]
    unfold CacheManager.set
    refine ⟨nodupKeys_alSet k2 v2 hnc, nodupKeys_alSet k2 u hnt, ?_⟩
    intro key
    by_cases hk : key = k2
    · subst hk
      rw [alGet_alSet_self, alGet_alSet_self]
      exact Iff.rfl
    · rw [alGet_alSet_ne st1.cache v2 (Ne.symm hk),
          alGet_alSet_ne st1.timestamps u (Ne.symm hk)]
      exact hiff key
  | opClearAll =>
    rw [show runOp st1 CacheOp.opClearAll = st1.clearAll from rfl]
    unfold CacheManager.clearAll
    exact ⟨List.nodup_nil, List.nodup_nil, fun key => Iff.rfl⟩
  | opClearKey k2 =>
    rw [show runOp st1 (CacheOp.opClearKey k2) = st1.clearKey k2 from rfl]
    unfold CacheManager.clearKey
    cases hc : alGet st1.cache k2 with
    | none => exact ⟨hnc, hnt, hiff⟩
    | some w =>
      refine ⟨nodupKeys_alDel k2 hnc, nodupKeys_alDel k2 hnt, ?_⟩
      intro key
      by_cases hk : key = k2
      · subst hk
        rw [alGet_alDel_self key hnc, alGet_alDel_self key hnt]
        exact Iff.rfl
      · rw [alGet_alDel_ne st1.cache (Ne.symm hk),
            alGet_alDel_ne st1.timestamps (Ne.symm hk)]
        exact hiff key
  | opSweep u =>
    rw [show runOp st1 (CacheOp.opSweep u) = (st1.invalidate_expired u).2 from rfl]
    unfold CacheManager.invalidate_expired
    dsimp only
    set ek := (st1.timestamps.filter
      (fun kv => decide (st1.ttl_seconds < u - kv.2))).map Prod.fst with hek
    refine ⟨nodupKeys_foldl_alDel ek hnc, nodupKeys_foldl_alDel ek hnt, ?_⟩
    intro key
    by_cases hm : key ∈ ek
    · rw [(alGet_foldl_alDel ek st1.cache key hnc).trans (if_pos hm),
          (alGet_foldl_alDel ek st1.timestamps key hnt).trans (if_pos hm)]
      exact Iff.rfl
    · rw [(alGet_foldl_alDel ek st1.cache key hnc).trans (if_neg hm),
          (alGet_foldl_alDel ek st1.timestamps key hnt).trans (if_neg hm)]
      exact hiff key
  | opStats u => exact ⟨hnc, hnt, hiff⟩

/-- Structural health is preserved along any public call sequence. -/
theorem keysGood_runOps {V : Type} (ops : List (CacheOp V)) (st1 : CacheManager V)
    (h : KeysGood st1) : KeysGood (runOps st1 ops) := by
  induction ops generalizing st1 with
  | nil => exact h
  | cons op rest ih => exact ih (runOp st1 op) (keysGood_runOp st1 op h)

/-- **C9**: on every state reachable from a fresh cache through the public
API, the value map and the timestamp map carry exactly the same
(duplicate-free) key set; consequently the paired deletions inside `get`
(a key found in `_cache` whose entry has expired is also in
`_timestamps`) and inside `invalidate_expired` (every collected expired
key, taken from `_timestamps`, is also in `_cache`) never target a missing
key, and no public cache operation raises. -/
theorem c9_cache_totality {V : Type} (ttl : ℚ) (ops : List (CacheOp V)) :
    NodupKeys (runOps (CacheManager.init V ttl) ops).cache ∧
    NodupKeys (runOps (CacheManager.init V ttl) ops).timestamps ∧
    (∀ key, (alGet (runOps (CacheManager.init V ttl) ops).cache key).isSome ↔
            (alGet (runOps (CacheManager.init V ttl) ops).timestamps key).isSome) ∧
    (∀ key, alGet (runOps (CacheManager.init V ttl) ops).cache key ≠ none →
       (alGet (runOps (CacheManager.init V ttl) ops).timestamps key).isSome) ∧
    (∀ now : ℚ,
       ∀ key ∈ (((runOps (CacheManager.init V ttl) ops).timestamps.filter
           (fun kv => decide ((runOps (CacheManager.init V ttl) ops).ttl_seconds
             < now - kv.2))).map Prod.fst),
         (alGet (runOps (CacheManager.init V ttl) ops).cache key).isSome ∧
         (alGet (runOps (CacheManager.init V ttl) ops).timestamps key).isSome) := by
  have h0 : KeysGood (CacheManager.init V ttl) :=
    ⟨List.nodup_nil, List.nodup_nil, fun key => Iff.rfl⟩
  obtain ⟨hnc, hnt, hiff⟩ := keysGood_runOps ops (CacheManager.init V ttl) h0
  refine ⟨hnc, hnt, hiff, ?_, ?_⟩
  · intro key hkey
    exact (hiff key).mp (Option.ne_none_iff_isSome.mp hkey)
  · intro now key hkey
    obtain ⟨⟨k1, ts⟩, hmemf, hfst⟩ := List.mem_map.mp hkey
    obtain ⟨hmem, -⟩ := List.mem_filter.mp hmemf
    dsimp only at hfst
    subst hfst
    have hts : (alGet (runOps (CacheManager.init V ttl) ops).timestamps k1).isSome :=
      (alGet_isSome_iff _ k1).mpr (List.mem_map.mpr ⟨(k1, ts), hmem, rfl⟩)
    exact ⟨(hiff k1).mpr hts, hts⟩

/-- **C9 witness**: the key-alignment consequences at a concrete reachable
state (fresh TTL-1 cache after one `set`), with the deletion
preconditions' hypotheses discharged by evaluation. -/
theorem c9_cache_totality_witness :
    (alGet (runOps (CacheManager.init Nat 1)
       [CacheOp.opSet 0 "categories" 42]).timestamps "categories").isSome ∧
    (alGet (runOps (CacheManager.init Nat 1)
       [CacheOp.opSet 0 "categories" 42]).cache "categories").isSome := by
  have hstate : runOps (CacheManager.init Nat 1) [CacheOp.opSet 0 "categories" 42]
      = { ttl_seconds := 1, cache := [("categories", 42)],
          timestamps := [("categories", 0)] } := rfl
  constructor
  · refine (c9_cache_totality 1 [CacheOp.opSet 0 "categories" 42]).2.2.2.1
      "categories" ?_
    rw [hstate]
    decide
  · refine ((c9_cache_totality 1 [CacheOp.opSet 0 "categories" 42]).2.2.2.2
      5 "categories" ?_).1
    rw [hstate]
    refine List.mem_map.mpr ⟨("categories", (0 : ℚ)), List.mem_filter.mpr
      ⟨List.mem_singleton.mpr rfl, ?_⟩, rfl⟩
    simp only [decide_eq_true_eq]
    norm_num

/-- **C4**: the result sequence of `_fuzzy_match` is non-increasing in
`match_score`, and (whenever the empty-input guards do not trivialise the
output) its equal-score matches are exactly the retained scored pairs of
that score in candidate order — Python's `list.sort` is stable and the code
adds no secondary tie-break key. -/
theorem c4_sorted_and_stable (score : String → String → ℚ) (query : String)
    (candidates : List PyVal) (kf : PyVal → Option String) (threshold : ℚ) :
    (fuzzyMatch score query candidates kf threshold).Pairwise
      (fun a b => b.match_score ≤ a.match_score) ∧
    (query ≠ "" → candidates ≠ [] → ∀ s : ℚ,
      (fuzzyMatch score query candidates kf threshold).filter
          (fun m => decide (m.match_score = s))
        = ((scoredRetained score query kf candidates threshold).filter
            (fun p => decide (p.1 = s))).map (fun p => mkMatch kf p.1 p.2)) := by
  constructor
  · unfold fuzzyMatch
    split
    · exact List.Pairwise.nil
    · dsimp only
      split
      · exact List.Pairwise.nil
      · rw [List.pairwise_map]
        exact (sortDesc_sorted _).imp (fun h => h)
  · intro hq hc s
    unfold fuzzyMatch
    have hg : (query == "" || candidates.isEmpty) = false := by
      simp [hq, List.isEmpty_iff, hc]
    simp only [hg, Bool.false_eq_true, if_false]
    by_cases he : (candidateStrings kf candidates).isEmpty
    · have h0 : candidateStrings kf candidates = [] := List.isEmpty_iff.mp he
      have hsr : scoredRetained score query kf candidates threshold = [] := by
        unfold scoredRetained
        rw [h0]
        rfl
      simp [he, hsr]
    · simp only [he, Bool.false_eq_true, if_false]
      rw [List.filter_map]
      have hcomp : ((fun m : ResolutionMatch => decide (m.match_score = s)) ∘
          (fun p : ℚ × PyVal => mkMatch kf p.1 p.2)) =
          (fun p : ℚ × PyVal => decide (p.1 = s)) := rfl
      rw [hcomp, sortDesc_stable]

/-- **C4 witness**: the stability equation discharged on two candidates
sharing the matching string `"John"` (both score 100). -/
theorem c4_sorted_and_stable_witness :
    (fuzzyMatch identityScore "John" [johnCandV, johnCandV2] getGroupName 70).filter
        (fun m => decide (m.match_score = 100))
      = ((scoredRetained identityScore "John" getGroupName [johnCandV, johnCandV2] 70).filter
          (fun p => decide (p.1 = 100))).map (fun p => mkMatch getGroupName p.1 p.2) :=
  (c4_sorted_and_stable identityScore "John" [johnCandV, johnCandV2] getGroupName 70).2
    (by decide) (by simp) 100

/-- **C5**: raising the threshold shrinks the result — every match
returned at threshold `T2` is returned at any `T1 ≤ T2` — and the
threshold comparison is inclusive: an extracted candidate scoring exactly
the threshold yields a match. -/
theorem c5_threshold_monotone (score : String → String → ℚ) (query : String)
    (candidates : List PyVal) (kf : PyVal → Option String) (T1 T2 : ℚ)
    (h12 : T1 ≤ T2) :
    (∀ m ∈ fuzzyMatch score query candidates kf T2,
       m ∈ fuzzyMatch score query candidates kf T1) ∧
    (∀ cs ∈ candidateStrings kf candidates, query ≠ "" → candidates ≠ [] →
       score (pyLower query) (pyLower cs.1) = T2 →
       mkMatch kf T2 cs.2 ∈ fuzzyMatch score query candidates kf T2) := by
  constructor
  · intro m hm
    rcases mem_fuzzyMatch.mp hm with ⟨hq, hc, p, hp, rfl⟩
    rcases mem_scoredRetained.mp hp with ⟨cs, hcs, ht, rfl⟩
    exact mem_fuzzyMatch.mpr ⟨hq, hc, _,
      mem_scoredRetained.mpr ⟨cs, hcs, le_trans h12 ht, rfl⟩, rfl⟩
  · intro cs hcs hq hc hscore
    refine mem_fuzzyMatch.mpr ⟨hq, hc,
      (score (pyLower query) (pyLower cs.1), cs.2),
      mem_scoredRetained.mpr ⟨cs, hcs, le_of_eq hscore.symm, rfl⟩, ?_⟩
    rw [hscore]

/-- **C5 witness**: with threshold 50 versus 100, the exact match on
`"John"` (score 100) is retained at 100 and therefore also at 50. -/
theorem c5_threshold_monotone_witness :
    mkMatch getGroupName 100 johnCandV ∈
      fuzzyMatch identityScore "John" [johnCandV] getGroupName 50 := by
  have h := c5_threshold_monotone identityScore "John" [johnCandV] getGroupName
    50 100 (by norm_num)
  have h2 := h.2 ("John", johnCandV) (List.mem_singleton.mpr rfl)
    (by decide) (by simp) rfl
  exact h.1 _ h2

/-- **C7**: `clear_cache` resets both session caches to `None` — so the
next `resolve_friend`/`resolve_group` issues a fetch again — and leaves
the client's Time-Bounded Cache (categories/currencies) untouched. -/
theorem c7_clear_cache_frame {V : Type} (st : SystemState V) :
    (clearCache st).resolver.friendsCache = none ∧
    (clearCache st).resolver.groupsCache = none ∧
    (clearCache st).clientCache = st.clientCache ∧
    (∀ (score : String → String → ℚ) (fetch : Except Unit Obj) (q : String) (thr : ℚ),
       (resolveFriend score fetch (clearCache st).resolver q thr).fetched = true ∧
       (resolveGroup score fetch (clearCache st).resolver q thr).fetched = true) := by
  refine ⟨rfl, rfl, rfl, ?_⟩
  intro score fetch q thr
  cases fetch <;> exact ⟨rfl, rfl⟩

/-- **C8**: when the remote fetch raises while the session cache is cold,
`resolve_friend`/`resolve_group` propagate the error unchanged, the
session cache stays unset (the assignment at resolver.py 142/192 never
runs), and the immediately following resolution call of the same kind
issues the fetch again. -/
theorem c8_fetch_failure_atomic {ε : Type} (score : String → String → ℚ)
    (e : ε) (st : ResolverState) (q : String) (thr : ℚ)
    (hf : st.friendsCache = none) (hg : st.groupsCache = none) :
    ((resolveFriend score (.error e) st q thr).result = .error e ∧
     (resolveFriend score (.error e) st q thr).state = st ∧
     ∀ fetch2 : Except ε Obj,
       (resolveFriend score fetch2 (resolveFriend score (.error e) st q thr).state
         q thr).fetched = true) ∧
    ((resolveGroup score (.error e) st q thr).result = .error e ∧
     (resolveGroup score (.error e) st q thr).state = st ∧
     ∀ fetch2 : Except ε Obj,
       (resolveGroup score fetch2 (resolveGroup score (.error e) st q thr).state
         q thr).fetched = true) := by
  constructor
  · refine ⟨by simp [resolveFriend, hf], by simp [resolveFriend, hf], ?_⟩
    intro fetch2
    cases fetch2 <;> simp [resolveFriend, hf]
  · refine ⟨by simp [resolveGroup, hg], by simp [resolveGroup, hg], ?_⟩
    intro fetch2
    cases fetch2 <;> simp [resolveGroup, hg]

theorem dictGet_dictSet_self (o : Obj) (k : String) (v : PyVal) :
    dictGet (dictSet o k v) k = some v := by
  induction o with
  | nil => simp [dictGet, dictSet]
  | cons kv rest ih =>
    obtain ⟨k', v'⟩ := kv
    by_cases h : k' = k
    · simp [dictSet, h, dictGet]
    · simp [dictSet, h, dictGet, ih]

theorem dictGet_dictSet_ne (o : Obj) {k k2 : String} (v : PyVal) (hne : k ≠ k2) :
    dictGet (dictSet o k v) k2 = dictGet o k2 := by
  induction o with
  | nil => simp [dictGet, dictSet, hne]
  | cons kv rest ih =>
    obtain ⟨k', v'⟩ := kv
    by_cases h : k' = k
    · subst h
      simp [dictSet, dictGet, hne]
    · simp [dictSet, h, dictGet, ih]

/-- **C6**: the flattening loop keeps every top-level category as a
candidate — matched under its plain `name`, since fetched top-level
categories carry no `full_name` field — and additionally emits each
subcategory as a candidate whose matching string is the synthesized
`"{parent} - {sub}"` stored in the dedicated `full_name` field, which
`get_category_name` prefers over the plain name; the concrete category
`{id:1, name:"Home", subcategories:[{id:2, name:"Rent"}]}` yields exactly
two candidates matched under `"Home"` and `"Home - Rent"`. -/
theorem c6_subcategory_flattening (categories : List PyVal) :
    (∀ o : Obj, PyVal.vDict o ∈ categories →
       PyVal.vDict o ∈ flattenCategories categories ∧
       (dictGet o "full_name" = none →
         getCategoryName (PyVal.vDict o) = some (getStrD o "name" "")) ∧
       (∀ so : Obj, PyVal.vDict so ∈ getListD o "subcategories" →
         ∃ cand ∈ flattenCategories categories,
           getCategoryName cand =
             some (getStrD o "name" "" ++ " - " ++ getStrD so "name" "") ∧
           pyGetId cand = dictGet so "id")) ∧
    ((flattenCategories [homeCategory]).length = 2 ∧
     (flattenCategories [homeCategory]).map getCategoryName =
       [some "Home", some "Home - Rent"]) := by
  constructor
  · intro o ho
    refine ⟨?_, ?_, ?_⟩
    · exact List.mem_flatMap.mpr ⟨PyVal.vDict o, ho, List.mem_cons_self _ _⟩
    · intro hfn
      simp [getCategoryName, hfn]
    · intro so hso
      refine ⟨PyVal.vDict (dictSet so "full_name"
        (PyVal.vStr (getStrD o "name" "" ++ " - " ++ getStrD so "name" ""))), ?_, ?_, ?_⟩
      · exact List.mem_flatMap.mpr ⟨PyVal.vDict o, ho,
          List.mem_cons_of_mem _ (List.mem_map.mpr ⟨PyVal.vDict so, hso, rfl⟩)⟩
      · simp [getCategoryName, dictGet_dictSet_self]
      · exact dictGet_dictSet_ne so _ (by decide)
  · exact ⟨rfl, rfl⟩

/-- **C6 witness**: the general clauses discharged on the concrete
`Home`/`Rent` category list. -/
theorem c6_subcategory_flattening_witness :
    PyVal.vDict homeFields ∈ flattenCategories [homeCategory] ∧
    ∃ cand ∈ flattenCategories [homeCategory],
      getCategoryName cand = some "Home - Rent" ∧
      pyGetId cand = some (PyVal.vInt 2) := by
  have h := (c6_subcategory_flattening [homeCategory]).1 homeFields
    (List.mem_singleton.mpr rfl)
  refine ⟨h.1, ?_⟩
  obtain ⟨cand, hmem, hname, hid⟩ := h.2.2 rentFields (List.mem_singleton.mpr rfl)
  refine ⟨cand, hmem, ?_, ?_⟩
  · rw [hname]
    rfl
  · rw [hid]
    rfl

/-- **C8 witness**: the atomicity conclusions at a concrete cold state. -/
theorem c8_fetch_failure_atomic_witness :
    (resolveFriend identityScore (.error () : Except Unit Obj)
      ResolverState.init "John" 70).result = .error () ∧
    (resolveFriend identityScore (.error () : Except Unit Obj)
      ResolverState.init "John" 70).state = ResolverState.init := by
  have h := c8_fetch_failure_atomic identityScore () ResolverState.init "John" 70 rfl rfl
  exact ⟨h.1.1, h.1.2.1⟩

/-! ## Heap lemmas for the flattening loop (C10) -/

theorem read_append (st : Store) (l : List HDict) (a : Nat) (h : a < st.length) :
    Store.read (st ++ l) a = Store.read st a := by
  unfold Store.read
  induction st generalizing a with
  | nil => cases h
  | cons d rest ih =>
    cases a with
    | zero => rfl
    | succ a' =>
      simpa using ih a' (Nat.lt_of_succ_lt_succ h)

theorem read_append_self (st : Store) (d : HDict) :
    Store.read (st ++ [d]) st.length = d := by
  unfold Store.read
  induction st with
  | nil => rfl
  | cons e rest ih => simp [ih]

theorem set_append_last {α : Type} (l : List α) (x y : α) :
    (l ++ [x]).set l.length y = l ++ [y] := by
  induction l with
  | nil => rfl
  | cons a rest ih => simp [List.set, ih]

theorem storeExtends_refl (st : Store) : StoreExtends st st :=
  ⟨le_refl _, fun _ _ => rfl⟩

theorem storeExtends_trans {s1 s2 s3 : Store} (h1 : StoreExtends s1 s2)
    (h2 : StoreExtends s2 s3) : StoreExtends s1 s3 :=
  ⟨le_trans h1.1 h2.1, fun a ha => (h2.2 a (lt_of_lt_of_le ha h1.1)).trans (h1.2 a ha)⟩

theorem storeExtends_append (st : Store) (l : List HDict) :
    StoreExtends st (st ++ l) :=
  ⟨by simp, fun a ha => read_append st l a ha⟩

/-- Evaluating one inner-loop step: the heap grows by exactly the
modified copy, and the copy's (fresh) address joins the candidates. -/
theorem subStep_eq (catAddr : Nat) (st : Store) (cands : List Nat) (s : Nat) :
    subStep catAddr (st, cands) s =
      (st ++ [alSet (st.read s) "full_name" (HVal.val (PyVal.vStr
         (hGetStr (st.read catAddr) "name" ++ " - " ++ hGetStr (st.read s) "name")))],
       cands ++ [st.length]) := by
  unfold subStep
  dsimp only
  rw [set_append_last]

/-- ValidCats transfers along a heap extension. -/
theorem validCats_extends {st st' : Store} {cats : List Nat}
    (hv : ValidCats st cats) (hx : StoreExtends st st') : ValidCats st' cats := by
  intro c hc
  obtain ⟨hlt, hsubs⟩ := hv c hc
  refine ⟨lt_of_lt_of_le hlt hx.1, ?_⟩
  rw [hx.2 c hlt]
  exact fun s hs => lt_of_lt_of_le (hsubs s hs) hx.1

/-- The spec-level candidate contents only read addresses below the valid
bound, so they agree across a heap extension. -/
theorem flattenSpecDicts_congr {st st' : Store} (cats : List Nat)
    (hv : ValidCats st cats) (hx : StoreExtends st st') :
    flattenSpecDicts st' cats = flattenSpecDicts st cats := by
  induction cats with
  | nil => rfl
  | cons c cs ih =>
    have hc := hv c (List.mem_cons_self _ _)
    have hreads : st'.read c = st.read c := hx.2 c hc.1
    unfold flattenSpecDicts
    rw [List.flatMap_cons, List.flatMap_cons]
    have htail : cs.flatMap (fun c' =>
        let d := st'.read c'
        d :: (subRefs d).map (fun s => alSet (st'.read s) "full_name"
          (HVal.val (PyVal.vStr (hGetStr d "name" ++ " - " ++ hGetStr (st'.read s) "name")))))
      = cs.flatMap (fun c' =>
        let d := st.read c'
        d :: (subRefs d).map (fun s => alSet (st.read s) "full_name"
          (HVal.val (PyVal.vStr (hGetStr d "name" ++ " - " ++ hGetStr (st.read s) "name"))))) := by
      have := ih (fun c' hc' => hv c' (List.mem_cons_of_mem _ hc'))
      unfold flattenSpecDicts at this
      exact this
    rw [htail]
    congr 1
    dsimp only
    rw [hreads]
    congr 1
    refine List.map_congr_left ?_
    intro s hs
    rw [hx.2 s (hc.2 s hs)]

/-- Inner-loop correctness: starting from any store and accumulated
candidates, processing a list of (valid) subcategory addresses extends the
heap, keeps all candidate addresses valid, and the candidates' final
contents are the accumulated ones followed by the per-subcategory modified
copies, all as read from the starting store. -/
theorem subFoldAux (subs : List Nat) (catAddr : Nat) (st0 : Store) (acc : List Nat)
    (hcat : catAddr < st0.length) (hsubs : ∀ s ∈ subs, s < st0.length)
    (hacc : ∀ a ∈ acc, a < st0.length) :
    StoreExtends st0 (subs.foldl (subStep catAddr) (st0, acc)).1 ∧
    (∀ a ∈ (subs.foldl (subStep catAddr) (st0, acc)).2,
        a < (subs.foldl (subStep catAddr) (st0, acc)).1.length) ∧
    (subs.foldl (subStep catAddr) (st0, acc)).2.map
        ((subs.foldl (subStep catAddr) (st0, acc)).1.read) =
      acc.map st0.read ++ subs.map (fun s =>
        alSet (st0.read s) "full_name" (HVal.val (PyVal.vStr
          (hGetStr (st0.read catAddr) "name" ++ " - " ++ hGetStr (st0.read s) "name")))) := by
  induction subs generalizing st0 acc with
  | nil =>
    refine ⟨storeExtends_refl st0, ?_, by simp⟩
    intro a ha
    exact hacc a ha
  | cons s ss ih =>
    have hs0 : s < st0.length := hsubs s (List.mem_cons_self _ _)
    set nd := alSet (st0.read s) "full_name" (HVal.val (PyVal.vStr
      (hGetStr (st0.read catAddr) "name" ++ " - " ++ hGetStr (st0.read s) "name"))) with hnd
    have hstep : subStep catAddr (st0, acc) s = (st0 ++ [nd], acc ++ [st0.length]) :=
      subStep_eq catAddr st0 acc s
    have hx1 : StoreExtends st0 (st0 ++ [nd]) := storeExtends_append st0 [nd]
    have hlen1 : (st0 ++ [nd]).length = st0.length + 1 := by simp
    have ih' := ih (st0 ++ [nd]) (acc ++ [st0.length])
      (lt_of_lt_of_le hcat hx1.1)
      (fun s' hs' => lt_of_lt_of_le (hsubs s' (List.mem_cons_of_mem _ hs')) hx1.1)
      (by
        intro a ha
        rcases List.mem_append.mp ha with ha | ha
        · exact lt_of_lt_of_le (hacc a ha) hx1.1
        · rw [List.mem_singleton.mp ha, hlen1]
          exact Nat.lt_succ_self _)
    rw [List.foldl_cons, hstep]
    refine ⟨storeExtends_trans hx1 ih'.1, ih'.2.1, ?_⟩
    rw [ih'.2.2]
    rw [List.map_append]
    have hacc_map : acc.map (st0 ++ [nd]).read = acc.map st0.read :=
      List.map_congr_left (fun a ha => read_append st0 [nd] a (hacc a ha))
    have hnew_map : [st0.length].map (st0 ++ [nd]).read = [nd] := by
      simp [read_append_self]
    have hss_map : ss.map (fun s' =>
        alSet ((st0 ++ [nd]).read s') "full_name" (HVal.val (PyVal.vStr
          (hGetStr ((st0 ++ [nd]).read catAddr) "name" ++ " - "
            ++ hGetStr ((st0 ++ [nd]).read s') "name"))))
      = ss.map (fun s' =>
        alSet (st0.read s') "full_name" (HVal.val (PyVal.vStr
          (hGetStr (st0.read catAddr) "name" ++ " - " ++ hGetStr (st0.read s') "name")))) := by
      refine List.map_congr_left ?_
      intro s' hs'
      rw [read_append st0 [nd] s' (hsubs s' (List.mem_cons_of_mem _ hs')),
          read_append st0 [nd] catAddr hcat]
    rw [hacc_map, hnew_map, hss_map, List.map_cons, hnd]
    simp

/-- Outer-loop correctness: flattening valid category addresses extends
the heap, produces in-heap candidate addresses, and the candidates' final
contents are exactly the spec-level contents computed from the starting
heap. -/
theorem catFoldAux (cats : List Nat) (st0 : Store) (acc : List Nat)
    (hv : ValidCats st0 cats) (hacc : ∀ a ∈ acc, a < st0.length) :
    StoreExtends st0 (cats.foldl catStep (st0, acc)).1 ∧
    (∀ a ∈ (cats.foldl catStep (st0, acc)).2,
        a < (cats.foldl catStep (st0, acc)).1.length) ∧
    (cats.foldl catStep (st0, acc)).2.map ((cats.foldl catStep (st0, acc)).1.read) =
      acc.map st0.read ++ flattenSpecDicts st0 cats := by
  induction cats generalizing st0 acc with
  | nil =>
    refine ⟨storeExtends_refl st0, ?_, by simp [flattenSpecDicts]⟩
    intro a ha
    exact hacc a ha
  | cons c cs ih =>
    have hc := hv c (List.mem_cons_self _ _)
    have hstep : catStep (st0, acc) c =
        (subRefs (st0.read c)).foldl (subStep c) (st0, acc ++ [c]) := rfl
    have hsub := subFoldAux (subRefs (st0.read c)) c st0 (acc ++ [c]) hc.1 hc.2
      (by
        intro a ha
        rcases List.mem_append.mp ha with ha | ha
        · exact hacc a ha
        · rw [List.mem_singleton.mp ha]
          exact hc.1)
    set r1 := (subRefs (st0.read c)).foldl (subStep c) (st0, acc ++ [c]) with hr1
    have hvcs : ValidCats st0 cs := fun c' hc' => hv c' (List.mem_cons_of_mem _ hc')
    have hvcs1 : ValidCats r1.1 cs := validCats_extends hvcs hsub.1
    have ih' := ih r1.1 r1.2 hvcs1 hsub.2.1
    rw [Prod.mk.eta] at ih'
    rw [List.foldl_cons, hstep]
    refine ⟨storeExtends_trans hsub.1 ih'.1, ih'.2.1, ?_⟩
    rw [ih'.2.2, hsub.2.2]
    rw [flattenSpecDicts_congr cs hvcs hsub.1]
    unfold flattenSpecDicts
    rw [List.flatMap_cons]
    simp [List.map_append]

/-- A single flattening run extends the heap (categories it read are left
untouched). -/
theorem flattenStore_extends (st : Store) (cats : List Nat) (hv : ValidCats st cats) :
    StoreExtends st (flattenStore st cats).1 :=
  (catFoldAux cats st [] hv (by simp)).1

/-- **C10**: the flattening loop of `resolve_category` never mutates the
dictionaries held by the client's category cache — after any number of
calls every originally cached dictionary is field-for-field what the fetch
produced (in particular no synthesized `full_name` key leaks into it), and
every repeated call reads the same candidate contents as the first. -/
theorem c10_resolve_category_no_mutation (st : Store) (cats : List Nat)
    (hv : ValidCats st cats) :
    (∀ n a, a < st.length → (iterFlattenStore cats n st).read a = st.read a) ∧
    (∀ n, ((flattenStore (iterFlattenStore cats n st) cats).2.map
            ((flattenStore (iterFlattenStore cats n st) cats).1.read))
          = (flattenStore st cats).2.map ((flattenStore st cats).1.read)) := by
  have hiter : ∀ (n : Nat) (s : Store), ValidCats s cats →
      StoreExtends s (iterFlattenStore cats n s) ∧
      ValidCats (iterFlattenStore cats n s) cats := by
    intro n
    induction n with
    | zero => exact fun s hvs => ⟨storeExtends_refl s, hvs⟩
    | succ m ihm =>
      intro s hvs
      have hx1 : StoreExtends s (flattenStore s cats).1 := flattenStore_extends s cats hvs
      have hv1 : ValidCats (flattenStore s cats).1 cats := validCats_extends hvs hx1
      have h := ihm (flattenStore s cats).1 hv1
      exact ⟨storeExtends_trans hx1 h.1, h.2⟩
  constructor
  · intro n a ha
    exact (hiter n st hv).1.2 a ha
  · intro n
    have h := hiter n st hv
    have h1 := catFoldAux cats (iterFlattenStore cats n st) [] h.2 (by simp)
    have h2 := catFoldAux cats st [] hv (by simp)
    calc (flattenStore (iterFlattenStore cats n st) cats).2.map
          ((flattenStore (iterFlattenStore cats n st) cats).1.read)
        = flattenSpecDicts (iterFlattenStore cats n st) cats := by
          simpa [flattenStore] using h1.2.2
      _ = flattenSpecDicts st cats := flattenSpecDicts_congr cats hv h.1
      _ = (flattenStore st cats).2.map ((flattenStore st cats).1.read) := by
          simpa [flattenStore] using h2.2.2.symm

/-- **C10 witness**: on the concrete `Home`/`Rent` heap, the cached
category dictionary at address 0 and the subcategory at address 1 are
unchanged after a flattening run. -/
theorem c10_resolve_category_no_mutation_witness :
    (iterFlattenStore [0] 1 demoStore).read 0 = demoStore.read 0 ∧
    (iterFlattenStore [0] 1 demoStore).read 1 = demoStore.read 1 := by
  have hv : ValidCats demoStore [0] := by
    intro c hc
    have hc0 : c = 0 := by simpa using hc
    subst hc0
    refine ⟨by norm_num [demoStore], ?_⟩
    intro s hs
    have : s = 1 := by
      simpa [demoStore, Store.read, homeHD, subRefs, alGet] using hs
    subst this
    norm_num [demoStore]
  have h := c10_resolve_category_no_mutation demoStore [0] hv
  exact ⟨h.1 1 0 (by norm_num [demoStore]), h.1 1 1 (by norm_num [demoStore])⟩

end SplitwiseMCP
